import Mathlib

/-!
Shallow embedding of the Android string-resource validator
(Go package `validator`).  Strings are modelled as `List Char`;
the four compiled regular expressions are modelled by hand-rolled
scanners implementing Go's non-overlapping leftmost `FindAll`
semantics for these particular (star-free) patterns.
-/

set_option maxRecDepth 4000

abbrev Str := List Char

def str (s : String) : Str := s.data

/-- ASCII letter, the character class `[a-zA-Z]`. -/
def isLetter (c : Char) : Bool :=
  (decide (Char.ofNat 97 ≤ c) && decide (c ≤ Char.ofNat 122)) ||
  (decide (Char.ofNat 65 ≤ c) && decide (c ≤ Char.ofNat 90))

/-- ASCII digit, the character class `[0-9]`. -/
def isDigit (c : Char) : Bool :=
  decide (Char.ofNat 48 ≤ c) && decide (c ≤ Char.ofNat 57)

/-- Go (RE2) whitespace class backslash-s, i.e. tab, newline, form feed,
carriage return, space. -/
def isSpaceGo (c : Char) : Bool :=
  decide (c = ' ') || decide (c = '\t') || decide (c = '\n') ||
  decide (c = Char.ofNat 12) || decide (c = '\r')

/-- Non-overlapping left-to-right scan for the two-character pattern
percent-then-`p`, as `FindAllStringSubmatch` computes it for the regexes
`(\%[a-zA-Z])` and `(\%\s)`.  The Boolean argument records whether the
previously seen character was an unconsumed percent sign. -/
def scanPercent (p : Char → Bool) : Bool → Str → List Str
  | _, [] => []
  | pending, c :: rest =>
    if pending && p c then ['%', c] :: scanPercent p false rest
    else scanPercent p (decide (c = '%')) rest

/-- All matches of `SimplePlaceholderRegex`, the pattern `(\%[a-zA-Z])`. -/
def simpleMatches (l : Str) : List Str := scanPercent isLetter false l

/-- All matches of `PotentialPlaceholderRegex`, the pattern `(\%\s)`. -/
def potentialMatches (l : Str) : List Str := scanPercent isSpaceGo false l

/-- All matches of `NewLineRegex`, the pattern `(\n)`. -/
def newlineMatches : Str → List Str
  | [] => []
  | c :: rest =>
    if c = '\n' then [c] :: newlineMatches rest else newlineMatches rest

/-- State of the scanner for `PositionalPlaceholderRegex`:
either between match attempts, or having consumed a percent sign and the
recorded run of digits, or having additionally consumed the dollar sign
(the digit run is then known to be nonempty). -/
inductive PosState : Type
  | idle : PosState
  | digits (ds : Str) : PosState
  | dollar (ds : Str) : PosState
deriving DecidableEq

/-- Scanner for the pattern `(\%[0-9]+\$[a-zA-Z])` with Go's
non-overlapping leftmost `FindAll` semantics.  A failed attempt resumes
at the character that caused the failure (no earlier character of a
failed attempt can start a match, because none of them is a percent
sign). -/
def posScan : PosState → Str → List Str
  | _, [] => []
  | .idle, c :: rest =>
    posScan (if c = '%' then .digits [] else .idle) rest
  | .digits ds, c :: rest =>
    if isDigit c then posScan (.digits (ds ++ [c])) rest
    else if c = '$' ∧ ds ≠ [] then posScan (.dollar ds) rest
    else posScan (if c = '%' then .digits [] else .idle) rest
  | .dollar ds, c :: rest =>
    if isLetter c then ('%' :: ds ++ '$' :: [c]) :: posScan .idle rest
    else posScan (if c = '%' then .digits [] else .idle) rest

/-- All matches of `PositionalPlaceholderRegex`. -/
def positionalMatches (l : Str) : List Str := posScan .idle l

/-- `NewLineRegex.ReplaceAllString(v, "\\n")`: every newline character is
replaced by the two-character sequence backslash-n. -/
def escapeNewlines : Str → Str
  | [] => []
  | c :: rest =>
    if c = '\n' then '\\' :: 'n' :: escapeNewlines rest
    else c :: escapeNewlines rest

/-- The structured content of the error messages produced by the four
validation rules (the `fmt.Sprintf` arguments; `ruleMsg` renders the
exact text). -/
inductive RuleErr : Type
  | countMismatch (got want : Nat) : RuleErr
  | tokenMismatch (i : Nat) (got expected : Str) : RuleErr
  | potential (escapedValue : Str) : RuleErr
  | newline (escapedValue : Str) : RuleErr
deriving DecidableEq

/-- A Go `error` result: `none` models a `nil` error. -/
abbrev RuleResult := Option RuleErr

/-- Result of running code that may panic (dereferencing a nil slice
aborts the whole Go program). -/
inductive PanicOr (α : Type) : Type
  | panic : PanicOr α
  | ok (a : α) : PanicOr α
deriving DecidableEq

def PanicOr.map {α β : Type} (f : α → β) : PanicOr α → PanicOr β
  | .panic => .panic
  | .ok a => .ok (f a)

/-- The positional loop of `validateSimplePlaceholders`: lengths of the
two lists are equal whenever this is reached, and the first index whose
tokens differ is reported (Go reports the target token first). -/
def firstMismatch : Nat → List Str → List Str → RuleResult
  | _, [], _ => none
  | _, _ :: _, [] => none
  | i, m :: ms, t :: ts =>
    if m ≠ t then some (.tokenMismatch i t m) else firstMismatch (i + 1) ms ts

def validateSimplePlaceholders (baseElemString validatedElemString : Str) :
    RuleResult :=
  let baseMatches := simpleMatches baseElemString
  let targetMatches := simpleMatches validatedElemString
  if baseMatches.length = 0 ∧ targetMatches.length = 0 then none
  else if baseMatches.length ≠ targetMatches.length then
    some (.countMismatch targetMatches.length baseMatches.length)
  else firstMismatch 0 baseMatches targetMatches

/-- The search loop of `validatePositionalPlaceholders`: for each base
token, the whole target list is scanned for an equal token; when none is
found the Go code formats `foundMatch[1]` with `foundMatch == nil`,
which panics (index out of range on a nil slice). -/
def positionalCheck (targetMatches : List Str) : Nat → List Str →
    PanicOr RuleResult
  | _, [] => .ok none
  | i, m :: ms =>
    if m ∈ targetMatches then positionalCheck targetMatches (i + 1) ms
    else .panic

def validatePositionalPlaceholders (baseElemString validatedElemString : Str) :
    PanicOr RuleResult :=
  let baseMatches := positionalMatches baseElemString
  let targetMatches := positionalMatches validatedElemString
  if baseMatches.length = 0 ∧ targetMatches.length = 0 then .ok none
  else if baseMatches.length ≠ targetMatches.length then
    .ok (some (.countMismatch targetMatches.length baseMatches.length))
  else positionalCheck targetMatches 0 baseMatches

def validatePotentialPlaceholder (elemValue : Str) : RuleResult :=
  if (potentialMatches elemValue).length > 0 then
    some (.potential (escapeNewlines elemValue))
  else none

def validateNewlineCharacters (elemValue : Str) : RuleResult :=
  if (newlineMatches elemValue).length > 0 then
    some (.newline (escapeNewlines elemValue))
  else none

/-! ## Resource document model -/

structure stringEl : Type where
  Name : Str
  Value : Str
deriving DecidableEq

structure pluralItemEl : Type where
  Quantity : Str
  Value : Str
deriving DecidableEq

structure pluralEl : Type where
  Name : Str
  Items : List pluralItemEl
deriving DecidableEq

structure stringArrayEl : Type where
  Name : Str
  Items : List Str
deriving DecidableEq

structure resourcesEl : Type where
  Strings : List stringEl
  Plurals : List pluralEl
  StringArrays : List stringArrayEl
deriving DecidableEq

/-- First string element with the given name, in document order. -/
def findStringElement (resources : resourcesEl) (name : Str) :
    Option stringEl :=
  resources.Strings.find? (fun el => decide (el.Name = name))

/-- First string-array element with the given name, in document order. -/
def findStringArrayElement (resources : resourcesEl) (name : Str) :
    Option stringArrayEl :=
  resources.StringArrays.find? (fun el => decide (el.Name = name))

/-! ## Findings -/

/-- The structured content of a finding: `missing` is a
`ResourceMissingError`, the other three are `ValidationError`s.
`structural` holds a read or parse error surfaced by `Validate`. -/
inductive Finding : Type
  | missing (name shortPath : Str) : Finding
  | noBase (name shortPath : Str) : Finding
  | ruleFail (name shortPath : Str) (e : RuleErr) : Finding
  | arrayCount (name shortPath : Str) (got want : Nat) : Finding
  | structural (msg : Str) : Finding
deriving DecidableEq

def Finding.isMissing : Finding → Bool
  | .missing _ _ => true
  | _ => false

def Finding.isNoBase : Finding → Bool
  | .noBase _ _ => true
  | _ => false

def natStr (n : Nat) : Str := (Nat.repr n).data

def quoteChar : Char := Char.ofNat 39

/-- The exact `fmt.Sprintf` text of each rule error. -/
def ruleMsg : RuleErr → Str
  | .countMismatch got want =>
    str "The target string has " ++ natStr got ++
    str " placeholder(s), while it should probably have " ++ natStr want
  | .tokenMismatch i got expected =>
    str "The target string placeholder #" ++ natStr i ++ str " is " ++ got ++
    str ", while it probably should be " ++ expected
  | .potential v =>
    str "Value " ++ [quoteChar] ++ v ++ [quoteChar] ++ str " has a potential placeholder"
  | .newline v =>
    str "The following line must not have a newline character: " ++
    [quoteChar] ++ v ++ [quoteChar]

/-- The exact `fmt.Sprintf` text of each finding, i.e. its `Error()`
string. -/
def message : Finding → Str
  | .missing name sp => str "[missing] element named " ++ name ++ str " in " ++ sp
  | .noBase name sp => name ++ str " in " ++ sp ++ str " does not have a base value."
  | .ruleFail name sp e => name ++ str " in " ++ sp ++ str ": " ++ ruleMsg e
  | .arrayCount name sp got want =>
    name ++ str " array in " ++ sp ++ str " has " ++ natStr got ++
    str " items, but it should have " ++ natStr want
  | .structural msg => msg

/-! ## The orchestrator `validateResources` -/

/-- Sequences a loop body that may panic, concatenating the findings of
the iterations in order. -/
def collectM {α β : Type} (f : α → PanicOr (List β)) :
    List α → PanicOr (List β)
  | [] => .ok []
  | a :: as =>
    match f a with
    | .panic => .panic
    | .ok l =>
      match collectM f as with
      | .panic => .panic
      | .ok ls => .ok (l ++ ls)

/-- The two entries of `comparisonValidationFuncs`, run in order
(`validateSimplePlaceholders` then `validatePositionalPlaceholders`),
collecting the non-nil errors. -/
def comparisonRules (baseString validatedString : Str) :
    PanicOr (List RuleErr) :=
  match validatePositionalPlaceholders baseString validatedString with
  | .panic => .panic
  | .ok posRes =>
    .ok ((validateSimplePlaceholders baseString validatedString).toList ++
      posRes.toList)

/-- The two entries of `simpleValidationFuncs`, run in order
(`validatePotentialPlaceholder` then `validateNewlineCharacters`),
collecting the non-nil errors. -/
def simpleRules (validatedString : Str) : List RuleErr :=
  (validatePotentialPlaceholder validatedString).toList ++
  (validateNewlineCharacters validatedString).toList

/-- The reverse-presence loop: every translated string element whose
name has no base string element yields one `ValidationError`. -/
def reversePhase (baseResources validatedResources : resourcesEl)
    (shortPath : Str) : List Finding :=
  validatedResources.Strings.flatMap fun validatedElem =>
    if baseResources.Strings.any
        (fun baseElem => decide (validatedElem.Name = baseElem.Name)) then []
    else [Finding.noBase validatedElem.Name shortPath]

/-- Loop body of the "Validate string elements" loop, for one base
string element. -/
def validateStringEntry (validatedResources : resourcesEl) (shortPath : Str)
    (showMissing : Bool) (baseElem : stringEl) : PanicOr (List Finding) :=
  match findStringElement validatedResources baseElem.Name with
  | none =>
    .ok (if showMissing then [Finding.missing baseElem.Name shortPath] else [])
  | some validatedElem =>
    match comparisonRules baseElem.Value validatedElem.Value with
    | .panic => .panic
    | .ok ces =>
      .ok ((ces ++ simpleRules validatedElem.Value).map
        (Finding.ruleFail baseElem.Name shortPath))

/-- Loop body of the "Validate string-array elements" loop, for one base
string-array element. -/
def validateArrayEntry (validatedResources : resourcesEl) (shortPath : Str)
    (showMissing : Bool) (baseElem : stringArrayEl) : PanicOr (List Finding) :=
  match findStringArrayElement validatedResources baseElem.Name with
  | none =>
    .ok (if showMissing then [Finding.missing baseElem.Name shortPath] else [])
  | some validatedElem =>
    if baseElem.Items.length ≠ validatedElem.Items.length then
      .ok [Finding.arrayCount validatedElem.Name shortPath
        validatedElem.Items.length baseElem.Items.length]
    else
      collectM
        (fun pr =>
          match comparisonRules pr.1 pr.2 with
          | .panic => .panic
          | .ok ces =>
            .ok ((ces ++ simpleRules pr.2).map
              (Finding.ruleFail baseElem.Name shortPath)))
        (baseElem.Items.zip validatedElem.Items)

/-- Findings contributed by one plurals element of the translated
document: only the two single-value rules run, on each item value. -/
def pluralFindings (shortPath : Str) (pluralsElem : pluralEl) : List Finding :=
  pluralsElem.Items.flatMap fun pluralValue =>
    (simpleRules pluralValue.Value).map (Finding.ruleFail pluralsElem.Name shortPath)

/-- The "Validate plurals elements" loop: driven by the translated
document, never by the base document. -/
def pluralsPhase (validatedResources : resourcesEl) (shortPath : Str) :
    List Finding :=
  validatedResources.Plurals.flatMap (pluralFindings shortPath)

def stringsPhase (baseResources validatedResources : resourcesEl)
    (shortPath : Str) (showMissing : Bool) : PanicOr (List Finding) :=
  collectM (validateStringEntry validatedResources shortPath showMissing)
    baseResources.Strings

def arraysPhase (baseResources validatedResources : resourcesEl)
    (shortPath : Str) (showMissing : Bool) : PanicOr (List Finding) :=
  collectM (validateArrayEntry validatedResources shortPath showMissing)
    baseResources.StringArrays

/-- `validateResources` of the Go source: the four loops in order, the
whole call panicking when any rule invocation panics. -/
def validateResources (baseResources validatedResources : resourcesEl)
    (shortPath : Str) (showMissing : Bool) : PanicOr (List Finding) :=
  match stringsPhase baseResources validatedResources shortPath showMissing with
  | .panic => .panic
  | .ok strFindings =>
    match arraysPhase baseResources validatedResources shortPath showMissing with
    | .panic => .panic
    | .ok arrFindings =>
      .ok (reversePhase baseResources validatedResources shortPath ++
        strFindings ++ arrFindings ++
        pluralsPhase validatedResources shortPath)

/-! ## The top-level `Validate` -/

/-- The file-system effects `Validate` performs, as oracles:
`parseFile` is `ioutil.ReadFile` followed by `xml.Unmarshal` at a path
(an `.error` is the Go error's text), `glob` is `filepath.Glob` on a
pattern. -/
structure Env : Type where
  parseFile : Str → Except Str resourcesEl
  glob : Str → Except Str (List Str)

/-- `filepath.Join` of two components, modelled as slash concatenation
(no path cleaning, which none of the claims depends on). -/
def pathJoin (a b : Str) : Str := a ++ '/' :: b

def pathJoin3 (a b c : Str) : Str := pathJoin (pathJoin a b) c

def valuesDir (locale : Str) : Str :=
  if locale.length > 0 then str "values-" ++ locale else str "values"

def parseResources (env : Env) (resDir localeName stringsFilename : Str) :
    Except Str resourcesEl :=
  env.parseFile (pathJoin3 resDir (valuesDir localeName) stringsFilename)

/-- Removal of the first occurrence of `x`, as the index-based splice in
`getOtherStringsFilePaths` does it. -/
def removeFirst : List Str → Str → List Str
  | [], _ => []
  | p :: ps, x => if p = x then ps else p :: removeFirst ps x

def getOtherStringsFilePaths (env : Env)
    (resDir exceptForLocale stringsFilename : Str) : Except Str (List Str) :=
  match env.glob (pathJoin3 resDir (str "values-*") stringsFilename) with
  | .error e => .error e
  | .ok paths =>
    match env.glob (pathJoin3 resDir (str "values") stringsFilename) with
    | .error e => .error e
    | .ok paths2 =>
      .ok (removeFirst (paths ++ paths2)
        (pathJoin3 resDir (valuesDir exceptForLocale) stringsFilename))

/-- `filepath.Rel(resDir, path)`, modelled for the only shape that
occurs: a path under `resDir` has the directory prefix dropped, anything
else is returned unchanged (the Go code falls back to the full path on
error). -/
def extractShortPath (resDir stringsFilePath : Str) : Str :=
  if (resDir ++ ['/']).isPrefixOf stringsFilePath then
    stringsFilePath.drop (resDir.length + 1)
  else stringsFilePath

/-- The per-path loop of `Validate`: parse failures are recorded and the
file skipped; otherwise the file's findings are appended. -/
def validateAll (env : Env) (baseResources : resourcesEl) (resDir : Str)
    (showMissing : Bool) : List Str → PanicOr (List Finding)
  | [] => .ok []
  | path :: rest =>
    match env.parseFile path with
    | .error e =>
      match validateAll env baseResources resDir showMissing rest with
      | .panic => .panic
      | .ok more => .ok (Finding.structural e :: more)
    | .ok resources =>
      match validateResources baseResources resources
          (extractShortPath resDir path) showMissing with
      | .panic => .panic
      | .ok ers =>
        match validateAll env baseResources resDir showMissing rest with
        | .panic => .panic
        | .ok more => .ok (ers ++ more)

/-- `Validate` of the Go source. -/
def Validate (env : Env) (resDir baseLocale stringsFilename : Str)
    (showMissing : Bool) : PanicOr (List Finding) :=
  match parseResources env resDir baseLocale stringsFilename with
  | .error e => .ok [Finding.structural e]
  | .ok baseResources =>
    match getOtherStringsFilePaths env resDir baseLocale stringsFilename with
    | .error e => .ok [Finding.structural e]
    | .ok paths => validateAll env baseResources resDir showMissing paths

/-! ## Helper lemmas -/

theorem collectM_ok_nil {α β : Type} (f : α → PanicOr (List β)) :
    ∀ l : List α, (∀ a ∈ l, f a = .ok []) → collectM f l = .ok [] := by
  intro l h
  induction l with
  | nil => rfl
  | cons a as ih =>
    simp only [collectM]
    rw [h a (List.mem_cons_self a as), ih (fun x hx => h x (List.mem_cons_of_mem a hx))]
    rfl

theorem collectM_countP {α : Type} (f : α → PanicOr (List Finding))
    (p : Finding → Bool) (h : α → Nat)
    (H : ∀ a l, f a = .ok l → l.countP p = h a) :
    ∀ (as : List α) (fs : List Finding),
      collectM f as = .ok fs → fs.countP p = (as.map h).sum := by
  intro as
  induction as with
  | nil =>
    intro fs hfs
    simp only [collectM, PanicOr.ok.injEq] at hfs
    subst hfs
    rfl
  | cons a as ih =>
    intro fs hfs
    simp only [collectM] at hfs
    cases hfa : f a with
    | panic => rw [hfa] at hfs; simp at hfs
    | ok l =>
      rw [hfa] at hfs
      cases hrest : collectM f as with
      | panic => rw [hrest] at hfs; simp at hfs
      | ok ls =>
        rw [hrest] at hfs
        simp only [PanicOr.ok.injEq] at hfs
        subst hfs
        rw [List.countP_append, H a l hfa, ih ls hrest]
        simp [Nat.add_comm]

theorem countP_flatMap {α : Type} (p : Finding → Bool) (f : α → List Finding) :
    ∀ l : List α, (l.flatMap f).countP p = (l.map (fun a => (f a).countP p)).sum := by
  intro l
  induction l with
  | nil => rfl
  | cons a as ih => simp [List.flatMap_cons, List.countP_append, ih]

theorem sum_map_ite {α : Type} (q : α → Bool) :
    ∀ l : List α, (l.map (fun a => if q a then 1 else 0)).sum = l.countP q := by
  intro l
  induction l with
  | nil => rfl
  | cons a as ih =>
    simp only [List.map_cons, List.sum_cons, List.countP_cons, ih]
    omega

theorem sum_map_zero {α : Type} : ∀ l : List α, (l.map (fun _ => 0)).sum = 0 := by
  intro l
  induction l with
  | nil => rfl
  | cons a as ih => simp [ih]

theorem find?_name_nodup {α : Type} (key : α → Str) :
    ∀ l : List α, (l.map key).Nodup →
      ∀ e ∈ l, l.find? (fun x => decide (key x = key e)) = some e := by
  intro l
  induction l with
  | nil => simp
  | cons a as ih =>
    intro hnd e he
    have hnd2 : (a :: as).map key = key a :: as.map key := rfl
    rw [hnd2, List.nodup_cons] at hnd
    rcases List.mem_cons.mp he with rfl | he2
    · simp [List.find?_cons_of_pos]
    · have hka : ¬(key a = key e) := by
        intro hcontra
        exact hnd.1 (hcontra ▸ List.mem_map_of_mem key he2)
      rw [List.find?_cons_of_neg _ (by simpa using hka)]
      exact ih hnd.2 e he2

theorem zip_self_eq {α : Type} :
    ∀ (l : List α) (pr : α × α), pr ∈ l.zip l → pr.1 = pr.2 := by
  intro l
  induction l with
  | nil => simp [List.zip]
  | cons a as ih =>
    intro pr h
    rw [List.zip_cons_cons] at h
    rcases List.mem_cons.mp h with rfl | h2
    · rfl
    · exact ih pr h2

theorem firstMismatch_self : ∀ (i : Nat) (l : List Str), firstMismatch i l l = none := by
  intro i l
  induction l generalizing i with
  | nil => rfl
  | cons m ms ih => simp [firstMismatch, ih]

theorem validateSimplePlaceholders_self (s : Str) :
    validateSimplePlaceholders s s = none := by
  unfold validateSimplePlaceholders
  by_cases h : (simpleMatches s).length = 0
  · simp [h]
  · simp [h, firstMismatch_self]

theorem positionalCheck_mem (tms : List Str) :
    ∀ (ms : List Str) (i : Nat), (∀ m ∈ ms, m ∈ tms) →
      positionalCheck tms i ms = .ok none := by
  intro ms
  induction ms with
  | nil => intro i _; rfl
  | cons m ms ih =>
    intro i h
    simp only [positionalCheck]
    rw [if_pos (h m (List.mem_cons_self m ms))]
    exact ih (i + 1) (fun x hx => h x (List.mem_cons_of_mem m hx))

theorem validatePositionalPlaceholders_self (s : Str) :
    validatePositionalPlaceholders s s = .ok none := by
  unfold validatePositionalPlaceholders
  by_cases h : (positionalMatches s).length = 0
  · simp [h]
  · simp only [h, and_self, if_false, ne_eq, not_true_eq_false, if_neg, ite_false,
      not_false_eq_true, ite_true]
    exact positionalCheck_mem _ _ 0 (fun m hm => hm)

theorem comparisonRules_self (s : Str) : comparisonRules s s = .ok [] := by
  unfold comparisonRules
  rw [validatePositionalPlaceholders_self]
  simp [validateSimplePlaceholders_self]

/-- A value on which both single-value rules pass. -/
def cleanValue (v : Str) : Prop :=
  validatePotentialPlaceholder v = none ∧ validateNewlineCharacters v = none

/-- Every value occurring in the document passes both single-value rules. -/
def cleanDoc (B : resourcesEl) : Prop :=
  (∀ e ∈ B.Strings, cleanValue e.Value) ∧
  (∀ a ∈ B.StringArrays, ∀ it ∈ a.Items, cleanValue it) ∧
  (∀ p ∈ B.Plurals, ∀ it ∈ p.Items, cleanValue it.Value)

/-- String names and string-array names are each duplicate-free. -/
def nodupNames (B : resourcesEl) : Prop :=
  (B.Strings.map stringEl.Name).Nodup ∧ (B.StringArrays.map stringArrayEl.Name).Nodup

instance (v : Str) : Decidable (cleanValue v) := by
  unfold cleanValue
  infer_instance

instance (B : resourcesEl) : Decidable (cleanDoc B) := by
  unfold cleanDoc
  infer_instance

instance (B : resourcesEl) : Decidable (nodupNames B) := by
  unfold nodupNames
  infer_instance

theorem simpleRules_clean {v : Str} (h : cleanValue v) : simpleRules v = [] := by
  simp [simpleRules, h.1, h.2]

/-! ## Counting findings per phase -/

theorem validateStringEntry_missing_count (T : resourcesEl) (sp : Str)
    (sm : Bool) (b : stringEl) (l : List Finding)
    (h : validateStringEntry T sp sm b = .ok l) :
    l.countP Finding.isMissing =
      if sm && (findStringElement T b.Name).isNone then 1 else 0 := by
  unfold validateStringEntry at h
  split at h
  · rename_i hf
    simp only [PanicOr.ok.injEq] at h
    subst h
    rw [hf]
    cases sm <;> simp [Finding.isMissing]
  · rename_i v hf
    split at h
    · simp at h
    · rename_i ces hc
      simp only [PanicOr.ok.injEq] at h
      subst h
      rw [hf]
      simp [List.countP_map, Function.comp, Finding.isMissing]

theorem validateArrayEntry_missing_count (T : resourcesEl) (sp : Str)
    (sm : Bool) (a : stringArrayEl) (l : List Finding)
    (h : validateArrayEntry T sp sm a = .ok l) :
    l.countP Finding.isMissing =
      if sm && (findStringArrayElement T a.Name).isNone then 1 else 0 := by
  unfold validateArrayEntry at h
  split at h
  · rename_i hf
    simp only [PanicOr.ok.injEq] at h
    subst h
    rw [hf]
    cases sm <;> simp [Finding.isMissing]
  · rename_i v hf
    split at h
    · simp only [PanicOr.ok.injEq] at h
      subst h
      rw [hf]
      simp [Finding.isMissing]
    · have hz := collectM_countP _ Finding.isMissing (fun _ => 0)
        (fun pr l2 h2 => by
          split at h2
          · simp at h2
          · rename_i ces hc
            simp only [PanicOr.ok.injEq] at h2
            subst h2
            simp [List.countP_map, Function.comp, Finding.isMissing])
        (a.Items.zip v.Items) l h
      rw [hz, sum_map_zero]
      rw [hf]
      simp

theorem stringsPhase_missing_count (B T : resourcesEl) (sp : Str) (sm : Bool)
    (fs : List Finding) (h : stringsPhase B T sp sm = .ok fs) :
    fs.countP Finding.isMissing =
      if sm then
        (B.Strings.filter (fun b => (findStringElement T b.Name).isNone)).length
      else 0 := by
  have hc := collectM_countP (validateStringEntry T sp sm) Finding.isMissing
    (fun b => if sm && (findStringElement T b.Name).isNone then 1 else 0)
    (fun b l hl => validateStringEntry_missing_count T sp sm b l hl) B.Strings fs h
  rw [hc]
  cases sm
  · simp [sum_map_zero]
  · simp only [Bool.true_and]
    rw [sum_map_ite, List.countP_eq_length_filter]
    simp

theorem arraysPhase_missing_count (B T : resourcesEl) (sp : Str) (sm : Bool)
    (fs : List Finding) (h : arraysPhase B T sp sm = .ok fs) :
    fs.countP Finding.isMissing =
      if sm then
        (B.StringArrays.filter (fun a => (findStringArrayElement T a.Name).isNone)).length
      else 0 := by
  have hc := collectM_countP (validateArrayEntry T sp sm) Finding.isMissing
    (fun a => if sm && (findStringArrayElement T a.Name).isNone then 1 else 0)
    (fun a l hl => validateArrayEntry_missing_count T sp sm a l hl) B.StringArrays fs h
  rw [hc]
  cases sm
  · simp [sum_map_zero]
  · simp only [Bool.true_and]
    rw [sum_map_ite, List.countP_eq_length_filter]
    simp

theorem reversePhase_missing_zero (B T : resourcesEl) (sp : Str) :
    (reversePhase B T sp).countP Finding.isMissing = 0 := by
  rw [List.countP_eq_zero]
  intro f hf
  unfold reversePhase at hf
  rcases List.mem_flatMap.mp hf with ⟨v, _, hfv⟩
  by_cases hb : B.Strings.any (fun b => decide (v.Name = b.Name))
  · simp [hb] at hfv
  · simp only [hb] at hfv
    rcases List.mem_singleton.mp (by simpa using hfv) with rfl
    simp [Finding.isMissing]

theorem pluralsPhase_missing_zero (T : resourcesEl) (sp : Str) :
    (pluralsPhase T sp).countP Finding.isMissing = 0 := by
  rw [List.countP_eq_zero]
  intro f hf
  unfold pluralsPhase pluralFindings at hf
  rcases List.mem_flatMap.mp hf with ⟨p, _, hfp⟩
  rcases List.mem_flatMap.mp hfp with ⟨it, _, hfit⟩
  rcases List.mem_map.mp hfit with ⟨e, _, rfl⟩
  simp [Finding.isMissing]

/-- Whether a translated string element has a base counterpart, exactly
as the reverse-presence loop computes it. -/
def hasBaseValue (B : resourcesEl) (v : stringEl) : Bool :=
  B.Strings.any (fun baseElem => decide (v.Name = baseElem.Name))

theorem reverseStep_countP (B : resourcesEl) (sp : Str) (p : Finding → Bool) :
    ∀ ts : List stringEl,
      (ts.flatMap fun v =>
        if B.Strings.any (fun baseElem => decide (v.Name = baseElem.Name)) then []
        else [Finding.noBase v.Name sp]).countP p =
      ts.countP (fun v => !hasBaseValue B v && p (.noBase v.Name sp)) := by
  intro ts
  induction ts with
  | nil => rfl
  | cons v ts ih =>
    rw [List.flatMap_cons, List.countP_append, ih, List.countP_cons]
    cases hv : hasBaseValue B v with
    | true =>
      unfold hasBaseValue at hv
      simp [hv]
    | false =>
      unfold hasBaseValue at hv
      simp only [hv, Bool.false_eq_true, if_false, Bool.not_false, Bool.true_and]
      cases hp : p (Finding.noBase v.Name sp) <;>
        simp [List.countP_cons, hp, Nat.add_comm]

theorem reversePhase_countP (B T : resourcesEl) (sp : Str) (p : Finding → Bool) :
    (reversePhase B T sp).countP p =
      T.Strings.countP (fun v => !hasBaseValue B v && p (.noBase v.Name sp)) := by
  unfold reversePhase
  exact reverseStep_countP B sp p T.Strings

theorem stringsPhase_countP_zero (p : Finding → Bool)
    (hm : ∀ n s, p (.missing n s) = false)
    (hr : ∀ n s e, p (.ruleFail n s e) = false)
    (B T : resourcesEl) (sp : Str) (sm : Bool) (fs : List Finding)
    (h : stringsPhase B T sp sm = .ok fs) : fs.countP p = 0 := by
  have hc := collectM_countP (validateStringEntry T sp sm) p (fun _ => 0)
    (fun b l hl => by
      unfold validateStringEntry at hl
      split at hl
      · simp only [PanicOr.ok.injEq] at hl
        subst hl
        cases sm <;> simp [hm]
      · split at hl
        · simp at hl
        · simp only [PanicOr.ok.injEq] at hl
          subst hl
          simp [List.countP_map, Function.comp, hr])
    B.Strings fs h
  rw [hc, sum_map_zero]

theorem arraysPhase_countP_zero (p : Finding → Bool)
    (hm : ∀ n s, p (.missing n s) = false)
    (hr : ∀ n s e, p (.ruleFail n s e) = false)
    (ha : ∀ n s g w, p (.arrayCount n s g w) = false)
    (B T : resourcesEl) (sp : Str) (sm : Bool) (fs : List Finding)
    (h : arraysPhase B T sp sm = .ok fs) : fs.countP p = 0 := by
  have hc := collectM_countP (validateArrayEntry T sp sm) p (fun _ => 0)
    (fun a l hl => by
      unfold validateArrayEntry at hl
      split at hl
      · simp only [PanicOr.ok.injEq] at hl
        subst hl
        cases sm <;> simp [hm]
      · split at hl
        · simp only [PanicOr.ok.injEq] at hl
          subst hl
          simp [ha]
        · have hz := collectM_countP _ p (fun _ => 0)
            (fun pr l2 h2 => by
              split at h2
              · simp at h2
              · simp only [PanicOr.ok.injEq] at h2
                subst h2
                simp [List.countP_map, Function.comp, hr])
            _ l hl
          rw [hz, sum_map_zero])
    B.StringArrays fs h
  rw [hc, sum_map_zero]

theorem pluralsPhase_countP_zero (p : Finding → Bool)
    (hr : ∀ n s e, p (.ruleFail n s e) = false)
    (T : resourcesEl) (sp : Str) : (pluralsPhase T sp).countP p = 0 := by
  rw [List.countP_eq_zero]
  intro f hf
  unfold pluralsPhase pluralFindings at hf
  rcases List.mem_flatMap.mp hf with ⟨q, _, hfp⟩
  rcases List.mem_flatMap.mp hfp with ⟨it, _, hfit⟩
  rcases List.mem_map.mp hfit with ⟨e, _, rfl⟩
  simp [hr]

/-- Inversion of `validateResources` into its four phases. -/
theorem validateResources_ok (B T : resourcesEl) (sp : Str) (sm : Bool)
    (fs : List Finding) (h : validateResources B T sp sm = .ok fs) :
    ∃ s a, stringsPhase B T sp sm = .ok s ∧ arraysPhase B T sp sm = .ok a ∧
      fs = reversePhase B T sp ++ s ++ a ++ pluralsPhase T sp := by
  unfold validateResources at h
  split at h
  · simp at h
  · rename_i s hs
    split at h
    · simp at h
    · rename_i a ha
      simp only [PanicOr.ok.injEq] at h
      exact ⟨s, a, hs, ha, h.symm⟩

/-! ## Characterising the percent-whitespace scanner -/

/-- Some occurrence of a percent sign immediately followed by a
character satisfying `p` (the spec's "a literal percent sign followed by
whitespace", as a substring property). -/
def hasPct (p : Char → Bool) (l : Str) : Prop :=
  ∃ c, p c = true ∧ ['%', c] <:+: l

theorem hasPct_cons {p : Char → Bool} {a : Char} {l : Str} :
    hasPct p (a :: l) ↔
      (a = '%' ∧ ∃ c l2, l = c :: l2 ∧ p c = true) ∨ hasPct p l := by
  constructor
  · rintro ⟨c, hc, hinf⟩
    rcases List.infix_cons_iff.mp hinf with hpre | hinf2
    · rcases hpre with ⟨t, ht⟩
      simp only [List.cons_append] at ht
      rcases ht with ⟨rfl, rfl⟩
      exact Or.inl ⟨rfl, c, t, rfl, hc⟩
    · exact Or.inr ⟨c, hc, hinf2⟩
  · rintro (⟨rfl, c, l2, rfl, hc⟩ | ⟨c, hc, hinf⟩)
    · exact ⟨c, hc, ⟨[], l2, rfl⟩⟩
    · exact ⟨c, hc, List.infix_cons hinf⟩

theorem hasPct_nil {p : Char → Bool} : ¬ hasPct p [] := by
  rintro ⟨c, _, hinf⟩
  have := hinf.length_le
  simp at this

theorem hasPct_single {p : Char → Bool} {a : Char} : ¬ hasPct p [a] := by
  rintro ⟨c, _, hinf⟩
  have := hinf.length_le
  simp at this

theorem scanPercent_ne_nil (p : Char → Bool) :
    ∀ (l : Str) (pending : Bool),
      scanPercent p pending l ≠ [] ↔
        hasPct p (if pending then '%' :: l else l) := by
  intro l
  induction l with
  | nil =>
    intro pending
    cases pending <;> simp [scanPercent, hasPct_nil, hasPct_single]
  | cons a rest ih =>
    intro pending
    have htrue : (if (true : Bool) = true then '%' :: rest else rest) = '%' :: rest :=
      if_pos rfl
    have hfalse : (if (false : Bool) = true then '%' :: rest else rest) = rest :=
      if_neg (by simp)
    cases pending with
    | false =>
      rw [show scanPercent p false (a :: rest) =
        scanPercent p (decide (a = '%')) rest by simp [scanPercent]]
      rw [show (if (false : Bool) = true then '%' :: a :: rest else a :: rest) =
        a :: rest from if_neg (by simp)]
      by_cases ha : a = '%'
      · subst ha
        rw [show (decide ((Char.ofNat 37 : Char) = '%')) = true by simp, ih true, htrue]
      · rw [show (decide (a = '%')) = false by simp [ha], ih false, hfalse]
        rw [hasPct_cons]
        simp [ha]
    | true =>
      rw [show (if (true : Bool) = true then '%' :: a :: rest else a :: rest) =
        '%' :: a :: rest from if_pos rfl]
      by_cases hpa : p a = true
      · constructor
        · intro _
          exact ⟨a, hpa, ⟨[], rest, rfl⟩⟩
        · intro _
          simp [scanPercent, hpa]
      · rw [show scanPercent p true (a :: rest) =
          scanPercent p (decide (a = '%')) rest by simp [scanPercent, hpa]]
        by_cases ha : a = '%'
        · subst ha
          rw [show (decide ((Char.ofNat 37 : Char) = '%')) = true by simp, ih true, htrue]
          constructor
          · intro h
            exact hasPct_cons.mpr (Or.inr h)
          · intro h
            rcases hasPct_cons.mp h with ⟨_, c, l2, hl, hc⟩ | h2
            · cases hl
              exact absurd hc (by simpa using hpa)
            · exact h2
        · rw [show (decide (a = '%')) = false by simp [ha], ih false, hfalse]
          constructor
          · intro h
            exact hasPct_cons.mpr (Or.inr (hasPct_cons.mpr (Or.inr h)))
          · intro h
            rcases hasPct_cons.mp h with ⟨_, c, l2, hl, hc⟩ | h2
            · cases hl
              exact absurd hc (by simpa using hpa)
            · rcases hasPct_cons.mp h2 with ⟨ha2, _⟩ | h3
              · exact absurd ha2 ha
              · exact h3

/-! ## Claims -/

/-- C1: with equal positional-placeholder counts and a base token (here
`%1$s` against translated `%2$s`) that occurs nowhere in the translated
token set, `validatePositionalPlaceholders` does not return a failure
value: it dereferences the nil `foundMatch` slice and panics. -/
theorem C1_positional_unmatched_panics :
    validatePositionalPlaceholders (str "%1$s") (str "%2$s") = .panic := by decide

/-- C2 counterexample: a document whose single string value is
`"% off"` validated against an identical copy yields a finding (the
potential-placeholder rule fires on the translated value), so identical
documents do not always produce zero findings. -/
theorem C2_counterexample :
    validateResources ⟨[⟨str "k", str "% off"⟩], [], []⟩
      ⟨[⟨str "k", str "% off"⟩], [], []⟩ (str "values-de/strings.xml") true ≠
    .ok [] := by decide

/-- C2 (amended): validating an identical copy of a base document B
against B produces zero findings, for both values of showMissing,
provided every value occurring in B passes the two single-value rules
and B's string names and string-array names are duplicate-free. -/
theorem C2_identity_clean (B : resourcesEl) (sp : Str) (sm : Bool)
    (hclean : cleanDoc B) (hnd : nodupNames B) :
    validateResources B B sp sm = .ok [] := by
  have hrev : reversePhase B B sp = [] := by
    unfold reversePhase
    apply List.flatMap_eq_nil_iff.mpr
    intro v hv
    have hany : B.Strings.any (fun b => decide (v.Name = b.Name)) = true :=
      List.any_eq_true.mpr ⟨v, hv, by simp⟩
    simp [hany]
  have hstr : stringsPhase B B sp sm = .ok [] := by
    apply collectM_ok_nil
    intro b hb
    unfold validateStringEntry
    have hfind : findStringElement B b.Name = some b := by
      unfold findStringElement
      exact find?_name_nodup stringEl.Name B.Strings hnd.1 b hb
    simp only [hfind, comparisonRules_self]
    simp [simpleRules_clean (hclean.1 b hb)]
  have harr : arraysPhase B B sp sm = .ok [] := by
    apply collectM_ok_nil
    intro a ha
    unfold validateArrayEntry
    have hfind : findStringArrayElement B a.Name = some a := by
      unfold findStringArrayElement
      exact find?_name_nodup stringArrayEl.Name B.StringArrays hnd.2 a ha
    simp only [hfind]
    rw [if_neg (by simp)]
    apply collectM_ok_nil
    intro pr hpr
    obtain ⟨x, y⟩ := pr
    have hxy : x = y := zip_self_eq a.Items (x, y) hpr
    subst hxy
    have hmem : x ∈ a.Items := (List.of_mem_zip hpr).2
    simp only [comparisonRules_self]
    simp [simpleRules_clean (hclean.2.1 a ha x hmem)]
  have hplu : pluralsPhase B sp = [] := by
    unfold pluralsPhase
    apply List.flatMap_eq_nil_iff.mpr
    intro q hq
    unfold pluralFindings
    apply List.flatMap_eq_nil_iff.mpr
    intro it hit
    simp [simpleRules_clean (hclean.2.2 q hq it hit)]
  unfold validateResources
  rw [hstr, harr]
  simp [hrev, hplu]

/-- C2 witness: a concrete clean, duplicate-free document for which the
amended identity property evaluates to zero findings. -/
theorem C2_identity_clean_witness :
    cleanDoc ⟨[⟨str "greeting", str "hello %1$s"⟩],
        [⟨str "apples", [⟨str "one", str "an apple"⟩]⟩],
        [⟨str "days", [str "Mon", str "Tue"]⟩]⟩ ∧
    nodupNames ⟨[⟨str "greeting", str "hello %1$s"⟩],
        [⟨str "apples", [⟨str "one", str "an apple"⟩]⟩],
        [⟨str "days", [str "Mon", str "Tue"]⟩]⟩ ∧
    validateResources
      ⟨[⟨str "greeting", str "hello %1$s"⟩],
        [⟨str "apples", [⟨str "one", str "an apple"⟩]⟩],
        [⟨str "days", [str "Mon", str "Tue"]⟩]⟩
      ⟨[⟨str "greeting", str "hello %1$s"⟩],
        [⟨str "apples", [⟨str "one", str "an apple"⟩]⟩],
        [⟨str "days", [str "Mon", str "Tue"]⟩]⟩
      (str "values-de/strings.xml") true = .ok [] :=
  ⟨by decide, by decide,
    C2_identity_clean _ (str "values-de/strings.xml") true (by decide) (by decide)⟩

/-- C3 counterexample: the claim says the value `"50% off"` passes the
potential-placeholder rule, but it contains a percent sign followed by a
space, so the code flags it. -/
theorem C3_counterexample :
    validatePotentialPlaceholder (str "50% off") =
      some (RuleErr.potential (str "50% off")) := by decide

/-- C3 (amended): the potential-placeholder rule passes on `"50%off"`,
fails on `"% off"`, and in general fires exactly when the value contains
a literal percent sign immediately followed by a whitespace character
(so it also fails on `"50% off"`). -/
theorem C3_potential_placeholder_rule :
    validatePotentialPlaceholder (str "50%off") = none ∧
    validatePotentialPlaceholder (str "% off") =
      some (RuleErr.potential (str "% off")) ∧
    ∀ v : Str, (∃ e, validatePotentialPlaceholder v = some e) ↔
      ∃ c, isSpaceGo c = true ∧ ['%', c] <:+: v := by
  refine ⟨by decide, by decide, ?_⟩
  intro v
  have hchar := scanPercent_ne_nil isSpaceGo v false
  rw [show (if (false : Bool) = true then '%' :: v else v) = v from
    if_neg (by simp)] at hchar
  unfold validatePotentialPlaceholder
  constructor
  · rintro ⟨e, he⟩
    by_cases hlen : (potentialMatches v).length > 0
    · exact hchar.mp (by
        intro hnil
        rw [show potentialMatches v = scanPercent isSpaceGo false v from rfl] at hlen
        rw [hnil] at hlen
        simp at hlen)
    · rw [if_neg hlen] at he
      exact absurd he (by simp)
  · intro hex
    have hnil : scanPercent isSpaceGo false v ≠ [] := hchar.mpr hex
    have hlen : (potentialMatches v).length > 0 := by
      unfold potentialMatches
      cases hscan : scanPercent isSpaceGo false v with
      | nil => exact absurd hscan hnil
      | cons x xs => simp
    rw [if_pos hlen]
    exact ⟨_, rfl⟩

/-- C5: the named-placeholder rule compares percent-letter tokens
index-by-index: base `"%s and %d"` against translated `"%d and %s"`
fails with a positional mismatch at index 0 (expected `%s`, got `%d`);
`"%s"` against `"%s"` passes; `"%s"` against `""` fails with a count
mismatch of 1 expected against 0 found. -/
theorem C5_simple_placeholder_examples :
    validateSimplePlaceholders (str "%s and %d") (str "%d and %s") =
      some (RuleErr.tokenMismatch 0 (str "%d") (str "%s")) ∧
    validateSimplePlaceholders (str "%s") (str "%s") = none ∧
    validateSimplePlaceholders (str "%s") (str "") =
      some (RuleErr.countMismatch 0 1) := by
  refine ⟨by decide, by decide, by decide⟩

theorem collectM_congr {α β : Type} (f g : α → PanicOr (List β)) :
    ∀ l : List α, (∀ a ∈ l, f a = g a) → collectM f l = collectM g l := by
  intro l h
  induction l with
  | nil => rfl
  | cons a as ih =>
    simp only [collectM]
    rw [h a (List.mem_cons_self a as), ih (fun x hx => h x (List.mem_cons_of_mem a hx))]

/-- C4: for every base string or string-array entry absent from the
translated document, a `ResourceMissingError` is emitted iff
`showMissing` is true, and the number of missing-resource findings is
exactly the number of absent base entries. -/
theorem C4_missing_resource_count (B T : resourcesEl) (sp : Str) (sm : Bool)
    (fs : List Finding) (h : validateResources B T sp sm = .ok fs) :
    fs.countP Finding.isMissing =
      if sm then
        (B.Strings.filter (fun b => (findStringElement T b.Name).isNone)).length +
        (B.StringArrays.filter (fun a => (findStringArrayElement T a.Name).isNone)).length
      else 0 := by
  rcases validateResources_ok B T sp sm fs h with ⟨s, a, hs, ha, rfl⟩
  rw [List.countP_append, List.countP_append, List.countP_append]
  rw [reversePhase_missing_zero, pluralsPhase_missing_zero]
  rw [stringsPhase_missing_count B T sp sm s hs,
    arraysPhase_missing_count B T sp sm a ha]
  cases sm <;> simp

/-- Concrete base document used by witnesses: two strings and two
string arrays, one of each missing from `exTrans`. -/
def exBase : resourcesEl :=
  ⟨[⟨str "title", str "Home"⟩, ⟨str "missing_one", str "Gone"⟩],
   [],
   [⟨str "days", [str "Mon"]⟩, ⟨str "missing_arr", [str "X"]⟩]⟩

/-- Concrete translated document used by witnesses. -/
def exTrans : resourcesEl :=
  ⟨[⟨str "title", str "Heim"⟩], [], [⟨str "days", [str "Mo"]⟩]⟩

/-- C4 witness: concrete documents with one absent string and one
absent array, `showMissing` true, giving exactly two missing findings. -/
theorem C4_missing_resource_count_witness :
    ([Finding.missing (str "missing_one") (str "p"),
      Finding.missing (str "missing_arr") (str "p")].countP Finding.isMissing) =
      if true then
        (exBase.Strings.filter
          (fun b => (findStringElement exTrans b.Name).isNone)).length +
        (exBase.StringArrays.filter
          (fun a => (findStringArrayElement exTrans a.Name).isNone)).length
      else 0 :=
  C4_missing_resource_count exBase exTrans (str "p") true _ (by decide)

/-- C6: a translated string entry whose name (occurring once among the
translated string entries) has no base string entry of the same name
produces exactly one `ValidationFailure`, whose message contains the
entry name and the text "does not have a base value". -/
theorem C6_reverse_presence (B T : resourcesEl) (sp : Str) (sm : Bool)
    (n : Str) (fs : List Finding)
    (hone : (T.Strings.filter (fun e => decide (e.Name = n))).length = 1)
    (hnob : ∀ b ∈ B.Strings, ¬ b.Name = n)
    (h : validateResources B T sp sm = .ok fs) :
    fs.countP (fun f => decide (f = Finding.noBase n sp)) = 1 ∧
    n <:+: message (Finding.noBase n sp) ∧
    str "does not have a base value" <:+: message (Finding.noBase n sp) := by
  refine ⟨?_, ?_, ?_⟩
  · rcases validateResources_ok B T sp sm fs h with ⟨s, a, hs, ha, rfl⟩
    rw [List.countP_append, List.countP_append, List.countP_append]
    rw [stringsPhase_countP_zero _ (by intro n2 s2; simp)
      (by intro n2 s2 e; simp) B T sp sm s hs]
    rw [arraysPhase_countP_zero _ (by intro n2 s2; simp)
      (by intro n2 s2 e; simp) (by intro n2 s2 g w; simp) B T sp sm a ha]
    rw [pluralsPhase_countP_zero _ (by intro n2 s2 e; simp) T sp]
    rw [reversePhase_countP]
    have hcongr : T.Strings.countP
        (fun v => !hasBaseValue B v &&
          decide (Finding.noBase v.Name sp = Finding.noBase n sp)) =
        T.Strings.countP (fun e => decide (e.Name = n)) := by
      apply List.countP_congr
      intro v _
      simp only [Bool.and_eq_true, Bool.not_eq_true', decide_eq_true_eq,
        Finding.noBase.injEq]
      constructor
      · rintro ⟨_, hn, _⟩
        exact hn
      · intro hn
        refine ⟨?_, hn, trivial⟩
        unfold hasBaseValue
        rw [List.any_eq_false]
        intro b hb
        simp only [decide_eq_true_eq, hn]
        intro hc
        exact hnob b hb hc.symm
    rw [hcongr, List.countP_eq_length_filter, hone]
  · unfold message
    apply List.IsPrefix.isInfix
    exact ((List.prefix_append n (str " in ")).trans
      (List.prefix_append _ sp)).trans (List.prefix_append _ _)
  · unfold message
    have hsplit : str " does not have a base value." =
        [' '] ++ str "does not have a base value" ++ ['.'] := by decide
    rw [hsplit]
    exact (List.infix_append [' '] (str "does not have a base value") ['.']).trans
      ⟨(n ++ str " in ") ++ sp, [], by simp⟩

/-- Concrete translated document with an orphaned string entry. -/
def exTransExtra : resourcesEl :=
  ⟨[⟨str "title", str "Heim"⟩, ⟨str "extra_key", str "x"⟩], [], []⟩

/-- C6 witness: the orphan `extra_key` entry yields exactly one
no-base-value finding and the message contains the required texts. -/
theorem C6_reverse_presence_witness :
    ([Finding.noBase (str "extra_key") (str "p")].countP
      (fun f => decide (f = Finding.noBase (str "extra_key") (str "p")))) = 1 ∧
    str "extra_key" <:+: message (Finding.noBase (str "extra_key") (str "p")) ∧
    str "does not have a base value" <:+:
      message (Finding.noBase (str "extra_key") (str "p")) :=
  C6_reverse_presence exBase exTransExtra (str "p") false (str "extra_key") _
    (by decide) (by decide) (by decide)

/-- C7: a base string-array entry whose translated counterpart exists
but has a different item count yields exactly one `ValidationFailure`,
reporting the actual and expected counts, and no per-item checks run for
that entry. -/
theorem C7_array_count_mismatch (T : resourcesEl) (sp : Str) (sm : Bool)
    (baseElem validatedElem : stringArrayEl)
    (hfind : findStringArrayElement T baseElem.Name = some validatedElem)
    (hlen : baseElem.Items.length ≠ validatedElem.Items.length) :
    validateArrayEntry T sp sm baseElem =
      .ok [Finding.arrayCount validatedElem.Name sp validatedElem.Items.length
        baseElem.Items.length] := by
  unfold validateArrayEntry
  simp only [hfind]
  rw [if_pos hlen]

/-- C7 witness: base array of three items against translated array of
two items gives the single count-mismatch finding. -/
theorem C7_array_count_mismatch_witness :
    validateArrayEntry ⟨[], [], [⟨str "colors", [str "red", str "blue"]⟩]⟩
      (str "p") true ⟨str "colors", [str "r", str "g", str "b"]⟩ =
    .ok [Finding.arrayCount (str "colors") (str "p") 2 3] :=
  C7_array_count_mismatch ⟨[], [], [⟨str "colors", [str "red", str "blue"]⟩]⟩
    (str "p") true ⟨str "colors", [str "r", str "g", str "b"]⟩
    ⟨str "colors", [str "red", str "blue"]⟩ (by decide) (by decide)

/-- C8: if parsing the base document fails, `Validate` returns exactly
that one finding; enumeration and the translated files are never
consulted (the result is the same for every glob outcome). -/
theorem C8_base_parse_failure_aborts (env : Env)
    (resDir baseLocale stringsFilename : Str) (sm : Bool) (e : Str)
    (h : env.parseFile (pathJoin3 resDir (valuesDir baseLocale) stringsFilename) =
      .error e) :
    Validate env resDir baseLocale stringsFilename sm =
      .ok [Finding.structural e] := by
  unfold Validate parseResources
  rw [h]

/-- An environment in which every file read fails. -/
def envParseFail : Env :=
  ⟨fun _ => .error (str "open res/values/strings.xml: no such file or directory"),
   fun _ => .ok []⟩

/-- C8 witness: with an unreadable base file, `Validate` returns
exactly the one structural finding. -/
theorem C8_base_parse_failure_aborts_witness :
    Validate envParseFail (str "res") (str "") (str "strings.xml") true =
      .ok [Finding.structural
        (str "open res/values/strings.xml: no such file or directory")] :=
  C8_base_parse_failure_aborts envParseFail (str "res") (str "") (str "strings.xml")
    true (str "open res/values/strings.xml: no such file or directory") rfl

/-- C9: plural entries are never validated against the base document:
the whole validation result depends only on the base document's string
and string-array entries, so a base plural entry that is absent from or
different in the translated document contributes nothing, even with
`showMissing` true. -/
theorem C9_base_plurals_irrelevant (B1 B2 T : resourcesEl) (sp : Str) (sm : Bool)
    (hs : B1.Strings = B2.Strings) (ha : B1.StringArrays = B2.StringArrays) :
    validateResources B1 T sp sm = validateResources B2 T sp sm := by
  unfold validateResources stringsPhase arraysPhase reversePhase
  rw [hs, ha]

/-- C9 witness: a base document carrying a plural entry (with a value
that would even fail the single-value rules) validates a translated
document identically to the same base without any plurals. -/
theorem C9_base_plurals_irrelevant_witness :
    validateResources
        ⟨[⟨str "t", str "v"⟩], [⟨str "bonus", [⟨str "one", str "% x"⟩]⟩], []⟩
        ⟨[⟨str "t", str "v"⟩], [], []⟩ (str "p") true =
      validateResources ⟨[⟨str "t", str "v"⟩], [], []⟩
        ⟨[⟨str "t", str "v"⟩], [], []⟩ (str "p") true :=
  C9_base_plurals_irrelevant
    ⟨[⟨str "t", str "v"⟩], [⟨str "bonus", [⟨str "one", str "% x"⟩]⟩], []⟩
    ⟨[⟨str "t", str "v"⟩], [], []⟩
    ⟨[⟨str "t", str "v"⟩], [], []⟩ (str "p") true rfl rfl

/-- C10 counterexample: a translated plurals entry named "extra" with
no base counterpart still produces a finding: the single-value rules run
on its item values, so the entry does not go unreported. -/
theorem C10_counterexample :
    validateResources ⟨[], [], []⟩
        ⟨[], [⟨str "extra", [⟨str "one", str "% x"⟩]⟩], []⟩ (str "p") true =
      .ok [Finding.ruleFail (str "extra") (str "p")
        (RuleErr.potential (str "% x"))] := by decide

/-- C10 (amended): the reverse-presence check covers only string
entries.  A translated string-array entry whose name has no counterpart
among the base string-array names contributes no finding of any kind;
the "does not have a base value" findings are exactly one per translated
string entry lacking a base counterpart (so none ever arises from a
string-array or plurals entry); but a translated plurals entry is not
silent: its item values still go through the single-value rules,
whatever the base document contains. -/
theorem C10_reverse_presence_scope :
    (∀ (B T : resourcesEl) (sp : Str) (sm : Bool) (x : stringArrayEl),
      (∀ a ∈ B.StringArrays, ¬ a.Name = x.Name) →
      validateResources B { T with StringArrays := T.StringArrays ++ [x] } sp sm =
        validateResources B T sp sm) ∧
    (∀ (B T : resourcesEl) (sp : Str) (sm : Bool) (fs : List Finding),
      validateResources B T sp sm = .ok fs →
      fs.countP Finding.isNoBase =
        (T.Strings.filter (fun v => !hasBaseValue B v)).length) ∧
    (∀ (B T : resourcesEl) (sp : Str) (sm : Bool) (q : pluralEl),
      validateResources B { T with Plurals := T.Plurals ++ [q] } sp sm =
        (validateResources B T sp sm).map (fun fs => fs ++ pluralFindings sp q)) := by
  refine ⟨?_, ?_, ?_⟩
  · intro B T sp sm x hx
    have harr : arraysPhase B { T with StringArrays := T.StringArrays ++ [x] } sp sm =
        arraysPhase B T sp sm := by
      unfold arraysPhase
      apply collectM_congr
      intro a ha
      have hfind : findStringArrayElement
          { T with StringArrays := T.StringArrays ++ [x] } a.Name =
          findStringArrayElement T a.Name := by
        unfold findStringArrayElement
        rw [show ({ T with StringArrays := T.StringArrays ++ [x] } :
          resourcesEl).StringArrays = T.StringArrays ++ [x] from rfl]
        rw [List.find?_append]
        have hnone : [x].find? (fun el => decide (el.Name = a.Name)) = none := by
          rw [List.find?_eq_none]
          intro y hy
          rcases List.mem_singleton.mp hy with rfl
          simp only [decide_eq_true_eq]
          intro hc
          exact hx a ha hc.symm
        rw [hnone, Option.or_none]
      unfold validateArrayEntry
      rw [hfind]
    have hstr : stringsPhase B { T with StringArrays := T.StringArrays ++ [x] } sp sm =
        stringsPhase B T sp sm := rfl
    have hrev : reversePhase B { T with StringArrays := T.StringArrays ++ [x] } sp =
        reversePhase B T sp := rfl
    have hplu : pluralsPhase { T with StringArrays := T.StringArrays ++ [x] } sp =
        pluralsPhase T sp := rfl
    unfold validateResources
    rw [hstr, harr, hrev, hplu]
  · intro B T sp sm fs h
    rcases validateResources_ok B T sp sm fs h with ⟨s, a, hs, ha, rfl⟩
    rw [List.countP_append, List.countP_append, List.countP_append]
    rw [stringsPhase_countP_zero _ (by intro n2 s2; simp [Finding.isNoBase])
      (by intro n2 s2 e; simp [Finding.isNoBase]) B T sp sm s hs]
    rw [arraysPhase_countP_zero _ (by intro n2 s2; simp [Finding.isNoBase])
      (by intro n2 s2 e; simp [Finding.isNoBase])
      (by intro n2 s2 g w; simp [Finding.isNoBase]) B T sp sm a ha]
    rw [pluralsPhase_countP_zero _ (by intro n2 s2 e; simp [Finding.isNoBase]) T sp]
    rw [reversePhase_countP]
    have hcongr : T.Strings.countP
        (fun v => !hasBaseValue B v && Finding.isNoBase (Finding.noBase v.Name sp)) =
        T.Strings.countP (fun v => !hasBaseValue B v) := by
      apply List.countP_congr
      intro v _
      simp [Finding.isNoBase]
    rw [hcongr, List.countP_eq_length_filter]
    omega
  · intro B T sp sm q
    have hplu : pluralsPhase { T with Plurals := T.Plurals ++ [q] } sp =
        pluralsPhase T sp ++ pluralFindings sp q := by
      unfold pluralsPhase
      rw [show ({ T with Plurals := T.Plurals ++ [q] } : resourcesEl).Plurals =
        T.Plurals ++ [q] from rfl]
      rw [List.flatMap_append]
      simp
    have hstr : stringsPhase B { T with Plurals := T.Plurals ++ [q] } sp sm =
        stringsPhase B T sp sm := rfl
    have harr : arraysPhase B { T with Plurals := T.Plurals ++ [q] } sp sm =
        arraysPhase B T sp sm := rfl
    have hrev : reversePhase B { T with Plurals := T.Plurals ++ [q] } sp =
        reversePhase B T sp := rfl
    unfold validateResources
    rw [hstr, harr, hrev, hplu]
    cases stringsPhase B T sp sm with
    | panic => rfl
    | ok s =>
      cases arraysPhase B T sp sm with
      | panic => rfl
      | ok a => simp [PanicOr.map, List.append_assoc]

/-- C10 witness: concrete instances of the three amended statements,
with all hypotheses discharged on concrete documents. -/
theorem C10_reverse_presence_scope_witness :
    (validateResources ⟨[], [], []⟩
      { (⟨[], [], []⟩ : resourcesEl) with
          StringArrays := ([] : List stringArrayEl) ++ [⟨str "orphan_arr", [str "x"]⟩] }
      (str "p") true =
        validateResources ⟨[], [], []⟩ ⟨[], [], []⟩ (str "p") true) ∧
    (([] : List Finding).countP Finding.isNoBase =
      ((⟨[], [], []⟩ : resourcesEl).Strings.filter
        (fun v => !hasBaseValue ⟨[], [], []⟩ v)).length) ∧
    (validateResources ⟨[], [], []⟩
      { (⟨[], [], []⟩ : resourcesEl) with
          Plurals := ([] : List pluralEl) ++ [⟨str "orphan_plu", [⟨str "one", str "a\nb"⟩]⟩] }
      (str "p") true =
        (validateResources ⟨[], [], []⟩ ⟨[], [], []⟩ (str "p") true).map
          (fun fs => fs ++ pluralFindings (str "p")
            ⟨str "orphan_plu", [⟨str "one", str "a\nb"⟩]⟩)) :=
  ⟨C10_reverse_presence_scope.1 ⟨[], [], []⟩ ⟨[], [], []⟩ (str "p") true
      ⟨str "orphan_arr", [str "x"]⟩ (by decide),
   C10_reverse_presence_scope.2.1 ⟨[], [], []⟩ ⟨[], [], []⟩ (str "p") true []
      (by decide),
   C10_reverse_presence_scope.2.2 ⟨[], [], []⟩ ⟨[], [], []⟩ (str "p") true
      ⟨str "orphan_plu", [⟨str "one", str "a\nb"⟩]⟩⟩
